import Mathlib

/-!
Verification of the LiSAT lifted-successor-generation core against its
natural-language specification.  The definitions below are a shallow
embedding of the C++ sources: `semi_join` (database/semi_join.cc),
`SuccessorGenerator` (search/successor_generators/successor_generator.cc)
and `HeuristicFactory` (search/heuristics/heuristic_factory.h).
-/

namespace LiSAT

/-- Modelled from the spec: the `Table` column-tag encoding lives in
`database/table.h`, which is not among the available sources.  Per the spec's
data model, each column of a join table is tagged either with a free-variable
slot id or with a constant marker carrying an object index. -/
inductive Tag where
  | var (slot : Nat)
  | const (obj : Nat)
deriving DecidableEq, Repr

/-- A transient join table: a list of column tags (`tuple_index` in the C++)
and a list of rows, each row a tuple of object indices aligned to the
columns. -/
structure Table where
  tuple_index : List Tag
  tuples : List (List Nat)
deriving DecidableEq, Repr

/-- Modelled from the spec: the C++ `semi_join` compares raw `tuple_index`
entries with `==`; the encoding of constant tags (table.h, not among the
sources) is fixed here from the spec's words: two columns match iff both
carry the same variable slot id, and constant columns never match. -/
def tagsMatch : Tag → Tag → Bool
  | Tag.var s, Tag.var t => s == t
  | _, _ => false

/-- The matching-pair scan of `semi_join` (semi_join.cc, the double loop over
`t1.tuple_index` and `t2.tuple_index`): all position pairs `(i, j)` whose
column tags match. -/
def computeMatches (t1 t2 : Table) : List (Nat × Nat) :=
  (List.range t1.tuple_index.length).flatMap (fun i =>
    (List.range t2.tuple_index.length).filterMap (fun j =>
      if tagsMatch (t1.tuple_index.getD i (Tag.const 0))
                   (t2.tuple_index.getD j (Tag.const 0))
      then some (i, j) else none))

/-- The inner comparison loop of `semi_join`: two rows agree on every
matching column pair (the C++ sets `match = false` and breaks at the first
disagreeing pair). -/
def agreesOn (ms : List (Nat × Nat)) (r1 r2 : List Nat) : Bool :=
  ms.all (fun m => r1.getD m.1 0 == r2.getD m.2 0)

/-- `semi_join` from semi_join.cc.  The C++ mutates `t1` in place; here the
resulting working table is returned.  If no column pair matches, `t1` is
returned unchanged; otherwise the kept rows are exactly those rows of `t1`
for which some row of `t2` agrees on all matching columns (the C++ copies
the full row into `new_tuples` and breaks at the first witness). -/
def semi_join (t1 t2 : Table) : Table :=
  let ms := computeMatches t1 t2
  if ms.isEmpty then
    t1
  else
    { t1 with
      tuples := t1.tuples.filter (fun r1 =>
        t2.tuples.any (fun r2 => agreesOn ms r1 r2)) }

/-- An argument of an atom (structs/Argument): either a constant carrying an
object index or a free variable carrying its slot id.  The C++ stores a
`constant` flag together with an `index`. -/
structure Argument where
  index : Nat
  constant : Bool
deriving DecidableEq, Repr

/-- A precondition or effect literal (structs/Atom): predicate id, ordered
argument list, negation flag. -/
structure Atom where
  predicate_symbol : Nat
  arguments : List Argument
  negated : Bool
deriving DecidableEq, Repr

/-- One relation of a state: a predicate id plus a set of ground tuples
(`std::unordered_set<GroundAtom, TupleHash>` in the C++, embedded as a
`Finset`). -/
structure Relation where
  predicate_symbol : Nat
  tuples : Finset (List Nat)
deriving DecidableEq

/-- A planning state (DBState): one relation per predicate, indexed by
predicate id, plus a bit-vector of nullary facts. -/
structure DBState where
  relations : List Relation
  nullary_atoms : List Bool
deriving DecidableEq

/-- `DBState::get_tuples_of_relation(i)`: the tuple set of relation `i`
(out-of-range lookup yields the empty relation). -/
def get_tuples_of_relation (s : DBState) (i : Nat) : Finset (List Nat) :=
  (s.relations.getD i ⟨i, ∅⟩).tuples

/-- An action schema (ActionSchema).  Modelled from the spec for the parts
outside successor_generator.cc: nullary preconditions and effects are two
pairs of bit-vectors, non-nullary preconditions and effects are atom lists,
and a schema with zero parameters is ground. -/
structure ActionSchema where
  index : Nat
  parameters : Nat
  positive_nullary_precond : List Bool
  negative_nullary_precond : List Bool
  positive_nullary_effects : List Bool
  negative_nullary_effects : List Bool
  precondition : List Atom
  effects : List Atom
deriving DecidableEq, Repr

/-- `ActionSchema::is_ground()`: the schema has no free parameters. -/
def ActionSchema.is_ground (a : ActionSchema) : Bool :=
  a.parameters == 0

/-- A lifted operator id (LiftedOperatorId): a schema index plus the
instantiation vector, one object index per free-variable slot. -/
structure LiftedOperatorId where
  index : Nat
  instantiation : List Nat
deriving DecidableEq, Repr

/-- The successor generator's own state: the static information computed at
construction (a state-shaped structure holding the never-changing
relations). -/
structure SuccessorGenerator where
  static_information : DBState
deriving DecidableEq

/-- `SuccessorGenerator::get_tuples_from_static_relation(i)`. -/
def get_tuples_from_static_relation (sg : SuccessorGenerator) (i : Nat) :
    Finset (List Nat) :=
  get_tuples_of_relation sg.static_information i

/-- The per-precondition check inside
`SuccessorGenerator::is_ground_action_applicable`: build the all-constant
tuple from the atom's arguments, then test membership in the state's dynamic
relation if it is non-empty, else in the static relation if that is
non-empty, else report failure regardless of the negation flag. -/
def ground_precond_holds (sg : SuccessorGenerator) (state : DBState)
    (precond : Atom) : Bool :=
  let tuple := precond.arguments.map Argument.index
  let dyn := get_tuples_of_relation state precond.predicate_symbol
  let stat := get_tuples_from_static_relation sg precond.predicate_symbol
  if dyn ≠ ∅ then
    (if precond.negated then decide (tuple ∉ dyn) else decide (tuple ∈ dyn))
  else if stat ≠ ∅ then
    (if precond.negated then decide (tuple ∉ stat) else decide (tuple ∈ stat))
  else
    false

/-- `SuccessorGenerator::is_ground_action_applicable`: the C++ loop returns
`false` at the first failing precondition and `true` once all pass. -/
def is_ground_action_applicable (sg : SuccessorGenerator)
    (action : ActionSchema) (state : DBState) : Bool :=
  action.precondition.all (ground_precond_holds sg state)

/-- `SuccessorGenerator::is_trivially_inapplicable`: test the schema's
positive/negative nullary-precondition bit-vectors against the state's
nullary bit-vector. -/
def is_trivially_inapplicable (state : DBState) (action : ActionSchema) :
    Bool :=
  (List.range action.positive_nullary_precond.length).any (fun i =>
    (action.positive_nullary_precond.getD i false
       && !(state.nullary_atoms.getD i false))
    || (action.negative_nullary_precond.getD i false
       && state.nullary_atoms.getD i false))

/-- First loop of `SuccessorGenerator::apply_nullary_effects`: clear the bit
of every negative nullary effect. -/
def clear_negative_nullary (neg : List Bool) (atoms : List Bool) :
    List Bool :=
  (List.range neg.length).foldl
    (fun acc i => if neg.getD i false then acc.set i false else acc) atoms

/-- Second loop of `SuccessorGenerator::apply_nullary_effects`: set the bit
of every positive nullary effect. -/
def set_positive_nullary (pos : List Bool) (atoms : List Bool) : List Bool :=
  (List.range pos.length).foldl
    (fun acc i => if pos.getD i false then acc.set i true else acc) atoms

/-- `SuccessorGenerator::apply_nullary_effects`: negative nullary effects
are applied first, positive ones after. -/
def apply_nullary_effects (action : ActionSchema) (atoms : List Bool) :
    List Bool :=
  set_positive_nullary action.positive_nullary_effects
    (clear_negative_nullary action.negative_nullary_effects atoms)

/-- Update relation `p` of a relation list by transforming its tuple set
(the C++ writes through `new_relation[eff.predicate_symbol].tuples`). -/
def updateRelation (rels : List Relation) (p : Nat)
    (f : Finset (List Nat) → Finset (List Nat)) : List Relation :=
  rels.set p ⟨(rels.getD p ⟨p, ∅⟩).predicate_symbol,
              f (rels.getD p ⟨p, ∅⟩).tuples⟩

/-- `SuccessorGenerator::tuple_to_atom`: resolve each effect argument to an
object index — constants yield their stored index, variables index into the
instantiation tuple.  (The C++ writes into a reused scratch buffer returned
by reference; the embedding returns the value.) -/
def tuple_to_atom (tuple : List Nat) (eff : Atom) : List Nat :=
  eff.arguments.map (fun a =>
    if !a.constant then tuple.getD a.index 0 else a.index)

/-- One iteration of the effect loop in
`SuccessorGenerator::apply_ground_action_effects`: the ground atom is the
constants of the effect's arguments; negated effects erase it from the
relation, positive ones insert it. -/
def apply_ground_effect (rels : List Relation) (eff : Atom) :
    List Relation :=
  let ga := eff.arguments.map Argument.index
  if eff.negated then
    updateRelation rels eff.predicate_symbol (fun t => t.erase ga)
  else
    updateRelation rels eff.predicate_symbol (fun t => insert ga t)

/-- `SuccessorGenerator::apply_ground_action_effects`. -/
def apply_ground_action_effects (action : ActionSchema)
    (rels : List Relation) : List Relation :=
  action.effects.foldl apply_ground_effect rels

/-- One iteration of the effect loop in
`SuccessorGenerator::apply_lifted_action_effects`: resolve the ground atom
via `tuple_to_atom`; negated effects erase it, positive effects insert it
only if it is not already present (the C++ guards the insertion with a
`find`). -/
def apply_lifted_effect (tuple : List Nat) (rels : List Relation)
    (eff : Atom) : List Relation :=
  let ga := tuple_to_atom tuple eff
  if eff.negated then
    updateRelation rels eff.predicate_symbol (fun t => t.erase ga)
  else
    updateRelation rels eff.predicate_symbol (fun t =>
      if ga ∈ t then t else insert ga t)

/-- `SuccessorGenerator::apply_lifted_action_effects`. -/
def apply_lifted_action_effects (action : ActionSchema) (tuple : List Nat)
    (rels : List Relation) : List Relation :=
  action.effects.foldl (apply_lifted_effect tuple) rels

/-- `SuccessorGenerator::generate_successors`: copy the state's nullary
bit-vector and relations, apply the nullary effects, then the ground or
lifted non-nullary effects, and build the new state from the copies. -/
def generate_successors (op : LiftedOperatorId) (action : ActionSchema)
    (state : DBState) : DBState :=
  let new_nullary_atoms := apply_nullary_effects action state.nullary_atoms
  let new_relation :=
    if action.is_ground then
      apply_ground_action_effects action state.relations
    else
      apply_lifted_action_effects action op.instantiation state.relations
  ⟨new_relation, new_nullary_atoms⟩

/-- `SuccessorGenerator::compute_map_indices_to_table_positions`: scan the
table's columns once, recording for every variable-tagged column its slot id
(`free_var_indices` entry) and its position (`map_indices_to_position`
entry); constant columns are skipped.  The two parallel vectors of the C++
are embedded as one list of (slot id, position) pairs. -/
def compute_map_indices_to_table_positions (tuple_index : List Tag) :
    List (Nat × Nat) :=
  tuple_index.enum.filterMap (fun jt =>
    match jt.2 with
    | Tag.var s => some (s, jt.1)
    | Tag.const _ => none)

/-- `SuccessorGenerator::order_tuple_by_free_variable_order`: for every
recorded (slot id, position) pair write
`ordered[slot_id] = tuple_with_const[position]`. -/
def order_tuple_by_free_variable_order (pairs : List (Nat × Nat))
    (tuple_with_const : List Nat) (ordered : List Nat) : List Nat :=
  pairs.foldl
    (fun acc sp => acc.set sp.1 (tuple_with_const.getD sp.2 0)) ordered

/-- The canonicalization performed per row in
`SuccessorGenerator::get_applicable_actions`: the ordered tuple starts as a
zero vector sized by the number of variable columns and is filled by
`order_tuple_by_free_variable_order`. -/
def canonical_binding (tuple_index : List Tag) (row : List Nat) :
    List Nat :=
  let pairs := compute_map_indices_to_table_positions tuple_index
  order_tuple_by_free_variable_order pairs row
    (List.replicate pairs.length 0)

/-- `SuccessorGenerator::get_applicable_actions`.  The join pipeline
(`instantiate`, defined in the generic-join sources outside the available
files) is passed as an explicit function argument; the rest follows the C++
loop: skip trivially inapplicable schemas, check ground schemas directly,
and canonicalize every row of a lifted schema's instantiation table. -/
def get_applicable_actions
    (instantiate : ActionSchema → DBState → Table)
    (sg : SuccessorGenerator) (actions : List ActionSchema)
    (state : DBState) : List LiftedOperatorId :=
  actions.flatMap (fun action =>
    if is_trivially_inapplicable state action then
      []
    else if action.is_ground then
      (if is_ground_action_applicable sg action state then
        [⟨action.index, []⟩]
      else [])
    else
      let insts := instantiate action state
      if insts.tuples.isEmpty then
        []
      else
        insts.tuples.map (fun t =>
          ⟨action.index, canonical_binding insts.tuple_index t⟩))

/-- The C++ `generate_successors` receives `state` by const reference and
only invokes const accessors on it; with explicit state passing the caller's
state after the call is returned alongside the produced successor. -/
def generate_successors_call (op : LiftedOperatorId)
    (action : ActionSchema) (state : DBState) : DBState × DBState :=
  (generate_successors op action state, state)

/-- The two heuristics the factory knows (heuristics/blind_heuristic.h,
goalcount.h). -/
inductive Heuristic where
  | blind
  | goalcount
deriving DecidableEq, Repr

/-- `boost::iequals`: case-insensitive string equality, character by
character. -/
def iequals (a b : String) : Bool :=
  a.data.map Char.toLower == b.data.map Char.toLower

/-- `HeuristicFactory::new_heuristic` (heuristic_factory.h): known method
names yield the corresponding heuristic; any other name yields the null
pointer, embedded as `none`. -/
def new_heuristic (method : String) : Option Heuristic :=
  if iequals method "blind" then some Heuristic.blind
  else if iequals method "goalcount" then some Heuristic.goalcount
  else none

/-! ### Helper lemmas -/

theorem tagsMatch_iff (t u : Tag) :
    tagsMatch t u = true ↔ ∃ s, t = Tag.var s ∧ u = Tag.var s := by
  cases t <;> cases u <;> simp [tagsMatch]
  exact eq_comm

theorem set_getD_eq_self {α : Type _} (l : List α) (n : Nat) (d : α)
    (h : n < l.length) : l.set n (l.getD n d) = l := by
  apply List.ext_getElem?
  intro m
  rw [List.getElem?_set]
  split
  · next heq =>
      subst heq
      rw [List.getD_eq_getElem _ _ h, List.getElem?_eq_getElem h]
  · rfl

/-! ### Semi-join claims -/

/-- C3: a pair of column positions `(i, j)` is recorded as a matching pair
by `semi_join`'s scan iff `t1`'s column `i` and `t2`'s column `j` carry the
same variable slot id; constant-tagged columns never form a matching
pair. -/
theorem computeMatches_mem_iff (t1 t2 : Table) (i j : Nat) :
    (i, j) ∈ computeMatches t1 t2 ↔
      ∃ s, t1.tuple_index[i]? = some (Tag.var s) ∧
           t2.tuple_index[j]? = some (Tag.var s) := by
  simp only [computeMatches, List.mem_flatMap, List.mem_range,
    List.mem_filterMap]
  constructor
  · rintro ⟨a, ha, b, hb, hif⟩
    by_cases hm : tagsMatch (t1.tuple_index.getD a (Tag.const 0))
        (t2.tuple_index.getD b (Tag.const 0)) = true
    · rw [if_pos hm] at hif
      obtain ⟨rfl, rfl⟩ : a = i ∧ b = j := by
        constructor <;> [exact congrArg Prod.fst (Option.some.inj hif);
          exact congrArg Prod.snd (Option.some.inj hif)]
      obtain ⟨s, hs1, hs2⟩ := (tagsMatch_iff _ _).mp hm
      refine ⟨s, ?_, ?_⟩
      · rw [← hs1, List.getD_eq_getElem _ _ ha, List.getElem?_eq_getElem ha]
      · rw [← hs2, List.getD_eq_getElem _ _ hb, List.getElem?_eq_getElem hb]
    · rw [if_neg hm] at hif
      cases hif
  · rintro ⟨s, hs1, hs2⟩
    obtain ⟨hi, hv1⟩ := List.getElem?_eq_some_iff.mp hs1
    obtain ⟨hj, hv2⟩ := List.getElem?_eq_some_iff.mp hs2
    refine ⟨i, hi, j, hj, ?_⟩
    rw [if_pos ?_]
    rw [List.getD_eq_getElem _ _ hi, List.getD_eq_getElem _ _ hj, hv1, hv2]
    simp [tagsMatch]

/-- C8: when no column pair matches, `semi_join` returns with `t1`
completely unchanged — no filtering, no cross product. -/
theorem semi_join_no_matches_unchanged (t1 t2 : Table)
    (h : computeMatches t1 t2 = []) : semi_join t1 t2 = t1 := by
  simp [semi_join, h]

theorem semi_join_no_matches_unchanged_witness :
    computeMatches ⟨[Tag.var 0, Tag.const 7], [[1, 7], [2, 7]]⟩
        ⟨[Tag.var 1, Tag.const 7], [[5, 7]]⟩ = [] ∧
      semi_join ⟨[Tag.var 0, Tag.const 7], [[1, 7], [2, 7]]⟩
          ⟨[Tag.var 1, Tag.const 7], [[5, 7]]⟩ =
        ⟨[Tag.var 0, Tag.const 7], [[1, 7], [2, 7]]⟩ :=
  ⟨by decide, semi_join_no_matches_unchanged _ _ (by decide)⟩

/-- C2: with at least one matching pair, every row kept by `semi_join` has a
witness row in `t2` agreeing on all matching columns, and every row of the
original `t1` that was dropped has no such witness. -/
theorem semi_join_witness_rows (t1 t2 : Table)
    (h : computeMatches t1 t2 ≠ []) :
    (∀ r ∈ (semi_join t1 t2).tuples,
        ∃ r2 ∈ t2.tuples, agreesOn (computeMatches t1 t2) r r2 = true)
    ∧ (∀ r ∈ t1.tuples, r ∉ (semi_join t1 t2).tuples →
        ∀ r2 ∈ t2.tuples, agreesOn (computeMatches t1 t2) r r2 = false) := by
  have hne : (computeMatches t1 t2).isEmpty = false :=
    List.isEmpty_eq_false.mpr h
  constructor
  · intro r hr
    rw [semi_join, hne] at hr
    simp only [Bool.false_eq_true, if_false, List.mem_filter] at hr
    exact List.any_eq_true.mp hr.2
  · intro r hr hdrop r2 hr2
    by_contra hagree
    apply hdrop
    rw [semi_join, hne]
    simp only [Bool.false_eq_true, if_false, List.mem_filter]
    refine ⟨hr, List.any_eq_true.mpr ⟨r2, hr2, ?_⟩⟩
    cases hb : agreesOn (computeMatches t1 t2) r r2
    · exact absurd hb hagree
    · rfl

theorem semi_join_witness_rows_witness :
    computeMatches ⟨[Tag.var 0], [[1], [2]]⟩ ⟨[Tag.var 0], [[1]]⟩ ≠ [] ∧
      ((∀ r ∈ (semi_join ⟨[Tag.var 0], [[1], [2]]⟩
            ⟨[Tag.var 0], [[1]]⟩).tuples,
          ∃ r2 ∈ [[1]],
            agreesOn (computeMatches ⟨[Tag.var 0], [[1], [2]]⟩
              ⟨[Tag.var 0], [[1]]⟩) r r2 = true)
      ∧ (∀ r ∈ [[1], [2]],
          r ∉ (semi_join ⟨[Tag.var 0], [[1], [2]]⟩
            ⟨[Tag.var 0], [[1]]⟩).tuples →
          ∀ r2 ∈ [[1]],
            agreesOn (computeMatches ⟨[Tag.var 0], [[1], [2]]⟩
              ⟨[Tag.var 0], [[1]]⟩) r r2 = false)) :=
  ⟨by decide, semi_join_witness_rows _ _ (by decide)⟩

/-- C10: with at least one matching pair, the rows kept by `semi_join` are,
in order, a subsequence of the original rows; each surviving row keeps its
original multiplicity and no new row is introduced. -/
theorem semi_join_sublist (t1 t2 : Table)
    (h : computeMatches t1 t2 ≠ []) :
    List.Sublist (semi_join t1 t2).tuples t1.tuples
    ∧ ∀ r ∈ (semi_join t1 t2).tuples,
        (semi_join t1 t2).tuples.count r = t1.tuples.count r := by
  have hne : (computeMatches t1 t2).isEmpty = false :=
    List.isEmpty_eq_false.mpr h
  rw [semi_join, hne]
  simp only [Bool.false_eq_true, if_false]
  refine ⟨List.filter_sublist _, ?_⟩
  intro r hr
  exact List.count_filter (List.mem_filter.mp hr).2

theorem semi_join_sublist_witness :
    computeMatches ⟨[Tag.var 0], [[1], [2], [1]]⟩ ⟨[Tag.var 0], [[1]]⟩ ≠ []
    ∧ (List.Sublist (semi_join ⟨[Tag.var 0], [[1], [2], [1]]⟩
          ⟨[Tag.var 0], [[1]]⟩).tuples [[1], [2], [1]]
      ∧ ∀ r ∈ (semi_join ⟨[Tag.var 0], [[1], [2], [1]]⟩
            ⟨[Tag.var 0], [[1]]⟩).tuples,
          (semi_join ⟨[Tag.var 0], [[1], [2], [1]]⟩
            ⟨[Tag.var 0], [[1]]⟩).tuples.count r =
            List.count r [[1], [2], [1]]) :=
  ⟨by decide, semi_join_sublist _ _ (by decide)⟩

/-! ### Ground applicability -/

/-- C1: whenever some precondition atom's dynamic relation in the state and
its static relation are both empty, the ground-applicability check reports
the template inapplicable, regardless of the atom's negation flag. -/
theorem is_ground_action_applicable_both_empty_false
    (sg : SuccessorGenerator) (action : ActionSchema) (state : DBState)
    (h : ∃ precond ∈ action.precondition,
        get_tuples_of_relation state precond.predicate_symbol = ∅ ∧
        get_tuples_from_static_relation sg precond.predicate_symbol = ∅) :
    is_ground_action_applicable sg action state = false := by
  obtain ⟨pc, hmem, hdyn, hstat⟩ := h
  rw [Bool.eq_false_iff]
  intro hall
  have hpc := List.all_eq_true.mp hall pc hmem
  rw [ground_precond_holds] at hpc
  simp only [hdyn, hstat, ne_eq, not_true_eq_false, if_false] at hpc
  cases hpc

theorem is_ground_action_applicable_both_empty_false_witness :
    (∃ precond ∈ [(⟨0, [], true⟩ : Atom)],
        get_tuples_of_relation ⟨[⟨0, ∅⟩], []⟩ precond.predicate_symbol = ∅ ∧
        get_tuples_from_static_relation ⟨⟨[⟨0, ∅⟩], []⟩⟩
          precond.predicate_symbol = ∅)
    ∧ is_ground_action_applicable ⟨⟨[⟨0, ∅⟩], []⟩⟩
        ⟨0, 0, [], [], [], [], [⟨0, [], true⟩], []⟩
        ⟨[⟨0, ∅⟩], []⟩ = false :=
  ⟨⟨⟨0, [], true⟩, by decide, by decide, by decide⟩,
    is_ground_action_applicable_both_empty_false _ _ _
      ⟨⟨0, [], true⟩, by decide, by decide, by decide⟩⟩

/-! ### Frame property of successor generation -/

/-- C4: `generate_successors` leaves the input state unmodified — the
embedded call returns the caller's state unchanged alongside the successor,
and `get_applicable_actions` queried on that state yields the identical
result as on the state before the call, for any instantiation strategy. -/
theorem generate_successors_preserves_input_state
    (instantiate : ActionSchema → DBState → Table)
    (sg : SuccessorGenerator) (actions : List ActionSchema)
    (op : LiftedOperatorId) (action : ActionSchema) (state : DBState) :
    (generate_successors_call op action state).2 = state
    ∧ get_applicable_actions instantiate sg actions
        (generate_successors_call op action state).2
      = get_applicable_actions instantiate sg actions state :=
  ⟨rfl, rfl⟩

/-! ### Heuristic factory -/

/-- C9 counterexample: at the unknown method name "astar" the factory yields
the null pointer (embedded as `none`), not an explicit "no such heuristic"
result. -/
theorem new_heuristic_unknown_counterexample :
    iequals "astar" "blind" = false ∧ iequals "astar" "goalcount" = false
    ∧ new_heuristic "astar" = none := by
  refine ⟨by decide, by decide, ?_⟩
  rw [new_heuristic]
  rw [if_neg (by decide), if_neg (by decide)]

/-- C9 amended: for every heuristic name that is not a known method, the
factory returns the null pointer, embedded as `none`. -/
theorem new_heuristic_unknown_none (method : String)
    (h1 : iequals method "blind" = false)
    (h2 : iequals method "goalcount" = false) :
    new_heuristic method = none := by
  rw [new_heuristic]
  rw [if_neg (by rw [h1]; exact Bool.false_ne_true),
      if_neg (by rw [h2]; exact Bool.false_ne_true)]

theorem new_heuristic_unknown_none_witness :
    iequals "lmcut" "blind" = false ∧ iequals "lmcut" "goalcount" = false
    ∧ new_heuristic "lmcut" = none :=
  ⟨by decide, by decide,
    new_heuristic_unknown_none "lmcut" (by decide) (by decide)⟩

/-! ### Nullary effect application -/

theorem foldl_setIf_length (c : Nat → Bool) (v : Bool) (js : List Nat)
    (acc : List Bool) :
    (js.foldl (fun a j => if c j then a.set j v else a) acc).length
      = acc.length := by
  induction js generalizing acc with
  | nil => rfl
  | cons j rest ih =>
      rw [List.foldl_cons]
      by_cases hc : c j = true
      · rw [if_pos hc, ih, List.length_set]
      · rw [if_neg hc, ih]

theorem foldl_setIf_stays (c : Nat → Bool) (v : Bool) (js : List Nat)
    (acc : List Bool) (i : Nat) (h : acc.getD i false = v) :
    (js.foldl (fun a j => if c j then a.set j v else a) acc).getD i false
      = v := by
  induction js generalizing acc with
  | nil => exact h
  | cons j rest ih =>
      rw [List.foldl_cons]
      by_cases hc : c j = true
      · rw [if_pos hc]
        apply ih
        rw [List.getD_eq_getElem?_getD, List.getElem?_set]
        split
        · next heq =>
            subst heq
            split
            · next hlt => rfl
            · next hge =>
                rw [← h, List.getD_eq_getElem?_getD,
                  List.getElem?_eq_none (by omega)]
        · rw [← List.getD_eq_getElem?_getD]
          exact h
      · rw [if_neg hc]
        exact ih _ h

theorem foldl_setIf_hit (c : Nat → Bool) (v : Bool) (js : List Nat)
    (acc : List Bool) (i : Nat) (hmem : i ∈ js) (hc : c i = true)
    (hlen : i < acc.length) :
    (js.foldl (fun a j => if c j then a.set j v else a) acc).getD i false
      = v := by
  induction js generalizing acc with
  | nil => cases hmem
  | cons j rest ih =>
      rw [List.foldl_cons]
      rcases List.mem_cons.mp hmem with heq | hrest
      · subst heq
        rw [if_pos hc]
        apply foldl_setIf_stays
        rw [List.getD_eq_getElem (_ : List Bool) _
              (by rw [List.length_set]; exact hlen),
            List.getElem_set, if_pos rfl]
      · by_cases hcj : c j = true
        · rw [if_pos hcj]
          exact ih _ hrest (by rw [List.length_set]; exact hlen)
        · rw [if_neg hcj]
          exact ih _ hrest hlen

/-- C5: the negative nullary effects are applied (bits cleared) before the
positive nullary effects are applied (bits set), so for a template that
both deletes and adds the same nullary fact, that fact is true in the
resulting bit-vector. -/
theorem apply_nullary_effects_add_wins (action : ActionSchema)
    (atoms : List Bool) (i : Nat) (hi : i < atoms.length)
    (hneg : action.negative_nullary_effects.getD i false = true)
    (hpos : action.positive_nullary_effects.getD i false = true) :
    apply_nullary_effects action atoms
      = set_positive_nullary action.positive_nullary_effects
          (clear_negative_nullary action.negative_nullary_effects atoms)
    ∧ (apply_nullary_effects action atoms).getD i false = true := by
  refine ⟨rfl, ?_⟩
  have hiP : i < action.positive_nullary_effects.length := by
    by_contra hcon
    push_neg at hcon
    rw [List.getD_eq_default _ _ hcon] at hpos
    cases hpos
  rw [apply_nullary_effects, set_positive_nullary]
  apply foldl_setIf_hit
  · exact List.mem_range.mpr hiP
  · exact hpos
  · rw [clear_negative_nullary]
    rw [foldl_setIf_length]
    exact hi

theorem apply_nullary_effects_add_wins_witness :
    0 < ([false] : List Bool).length
    ∧ (⟨0, 0, [], [], [true], [true], [], []⟩ :
        ActionSchema).negative_nullary_effects.getD 0 false = true
    ∧ (⟨0, 0, [], [], [true], [true], [], []⟩ :
        ActionSchema).positive_nullary_effects.getD 0 false = true
    ∧ (apply_nullary_effects ⟨0, 0, [], [], [true], [true], [], []⟩
        [false]).getD 0 false = true :=
  ⟨by decide, by decide, by decide,
    (apply_nullary_effects_add_wins ⟨0, 0, [], [], [true], [true], [], []⟩
      [false] 0 (by decide) (by decide) (by decide)).2⟩

/-! ### Canonicalization of instantiation rows -/

theorem compute_map_mem_iff (tuple_index : List Tag) (s p : Nat) :
    (s, p) ∈ compute_map_indices_to_table_positions tuple_index ↔
      tuple_index[p]? = some (Tag.var s) := by
  rw [compute_map_indices_to_table_positions]
  simp only [List.mem_filterMap, List.mem_enum_iff_getElem?]
  constructor
  · rintro ⟨⟨j, tag⟩, henum, hmatch⟩
    cases tag with
    | var t =>
        obtain ⟨rfl, rfl⟩ : t = s ∧ j = p := by
          constructor <;> [exact congrArg Prod.fst (Option.some.inj hmatch);
            exact congrArg Prod.snd (Option.some.inj hmatch)]
        exact henum
    | const _ => cases hmatch
  · intro h
    exact ⟨(p, Tag.var s), h, rfl⟩

theorem order_tuple_cons (q : Nat × Nat) (rest : List (Nat × Nat))
    (row init : List Nat) :
    order_tuple_by_free_variable_order (q :: rest) row init
      = order_tuple_by_free_variable_order rest row
          (init.set q.1 (row.getD q.2 0)) := rfl

theorem order_tuple_untouched (pairs : List (Nat × Nat)) (row init : List Nat)
    (s : Nat) (h : s ∉ pairs.map Prod.fst) :
    (order_tuple_by_free_variable_order pairs row init).getD s 0
      = init.getD s 0 := by
  induction pairs generalizing init with
  | nil => rfl
  | cons q rest ih =>
      rw [order_tuple_cons]
      rw [List.map_cons, List.mem_cons] at h
      push_neg at h
      rw [ih _ h.2, List.getD_eq_getElem?_getD, List.getElem?_set,
        if_neg (fun hq => h.1 hq.symm), ← List.getD_eq_getElem?_getD]

theorem order_tuple_getD (pairs : List (Nat × Nat)) (row init : List Nat)
    (hnodup : (pairs.map Prod.fst).Nodup)
    (hlt : ∀ q ∈ pairs, q.1 < init.length) (s p : Nat)
    (hmem : (s, p) ∈ pairs) :
    (order_tuple_by_free_variable_order pairs row init).getD s 0
      = row.getD p 0 := by
  induction pairs generalizing init with
  | nil => cases hmem
  | cons q rest ih =>
      rw [order_tuple_cons]
      rw [List.map_cons, List.nodup_cons] at hnodup
      rcases List.mem_cons.mp hmem with heq | hrest
      · subst heq
        rw [order_tuple_untouched rest row _ s hnodup.1]
        have hs : s < init.length := hlt (s, p) (List.mem_cons_self _ _)
        rw [List.getD_eq_getElem (_ : List Nat) _
              (by rw [List.length_set]; exact hs),
            List.getElem_set, if_pos rfl]
      · refine ih _ hnodup.2 ?_ hrest
        intro r hr
        rw [List.length_set]
        exact hlt r (List.mem_cons_of_mem _ hr)

/-- C6: for every variable-tagged column at row-position `p` carrying slot
id `s`, the canonical binding satisfies `ordered[s] = row[p]`, independent
of the table's column order; constant-tagged columns are skipped.  The
well-formedness hypotheses (distinct slot ids, each slot id below the
number of variable columns) hold for any table produced by the join
pipeline. -/
theorem canonical_binding_spec (tuple_index : List Tag) (row : List Nat)
    (s p : Nat)
    (hnodup : ((compute_map_indices_to_table_positions tuple_index).map
        Prod.fst).Nodup)
    (hcover : ∀ q ∈ compute_map_indices_to_table_positions tuple_index,
        q.1 < (compute_map_indices_to_table_positions tuple_index).length)
    (hcol : tuple_index[p]? = some (Tag.var s)) :
    (canonical_binding tuple_index row).getD s 0 = row.getD p 0 := by
  rw [canonical_binding]
  apply order_tuple_getD _ _ _ hnodup
  · intro q hq
    rw [List.length_replicate]
    exact hcover q hq
  · exact (compute_map_mem_iff tuple_index s p).mpr hcol

theorem canonical_binding_spec_witness :
    (((compute_map_indices_to_table_positions
        [Tag.var 1, Tag.var 0]).map Prod.fst).Nodup
      ∧ (∀ q ∈ compute_map_indices_to_table_positions [Tag.var 1, Tag.var 0],
          q.1 < (compute_map_indices_to_table_positions
            [Tag.var 1, Tag.var 0]).length)
      ∧ [Tag.var 1, Tag.var 0][1]? = some (Tag.var 0)
      ∧ [Tag.var 1, Tag.var 0][0]? = some (Tag.var 1))
    ∧ (canonical_binding [Tag.var 1, Tag.var 0] [5, 3]).getD 0 0 = 3
    ∧ (canonical_binding [Tag.var 1, Tag.var 0] [5, 3]).getD 1 0 = 5 :=
  ⟨⟨by decide, by decide, by decide, by decide⟩,
    (canonical_binding_spec [Tag.var 1, Tag.var 0] [5, 3] 0 1
        (by decide) (by decide) (by decide)).trans (by decide),
    (canonical_binding_spec [Tag.var 1, Tag.var 0] [5, 3] 1 0
        (by decide) (by decide) (by decide)).trans (by decide)⟩

/-! ### Effect application over relations -/

/-- The tuple set of relation `p` in a relation list (the view through which
`apply_lifted_action_effects` reads and writes
`new_relation[eff.predicate_symbol].tuples`). -/
def tuples_of (rels : List Relation) (p : Nat) : Finset (List Nat) :=
  (rels.getD p ⟨p, ∅⟩).tuples

theorem tuples_of_updateRelation (rels : List Relation) (p : Nat)
    (f : Finset (List Nat) → Finset (List Nat)) (hp : p < rels.length) :
    tuples_of (updateRelation rels p f) p = f (tuples_of rels p) := by
  rw [tuples_of, updateRelation, List.getD_eq_getElem (_ : List Relation) _
        (by rw [List.length_set]; exact hp),
      List.getElem_set, if_pos rfl]
  rfl

theorem updateRelation_length (rels : List Relation) (p : Nat)
    (f : Finset (List Nat) → Finset (List Nat)) :
    (updateRelation rels p f).length = rels.length := by
  rw [updateRelation, List.length_set]

theorem updateRelation_noop (rels : List Relation) (p : Nat)
    (f : Finset (List Nat) → Finset (List Nat)) (hp : p < rels.length)
    (hf : f (tuples_of rels p) = tuples_of rels p) :
    updateRelation rels p f = rels := by
  rw [updateRelation]
  rw [show (⟨(rels.getD p ⟨p, ∅⟩).predicate_symbol,
        f (rels.getD p ⟨p, ∅⟩).tuples⟩ : Relation) = rels.getD p ⟨p, ∅⟩ by
      rw [show f (rels.getD p ⟨p, ∅⟩).tuples = (rels.getD p ⟨p, ∅⟩).tuples
          from hf]]
  exact set_getD_eq_self rels p _ hp

/-- C7: effect application has set semantics.  A positive effect inserts the
resolved ground tuple only when absent, so the relation stays
duplicate-free, applying it twice equals applying it once and the tuple
count is unchanged by the second application; a negated effect erases the
tuple, and when the tuple is absent the whole relation list is left
untouched (a no-op, not an error). -/
theorem apply_lifted_effect_set_semantics (tuple : List Nat)
    (rels : List Relation) (eff : Atom)
    (hp : eff.predicate_symbol < rels.length) :
    (eff.negated = false →
      tuples_of (apply_lifted_effect tuple rels eff) eff.predicate_symbol
        = insert (tuple_to_atom tuple eff) (tuples_of rels eff.predicate_symbol)
      ∧ apply_lifted_effect tuple (apply_lifted_effect tuple rels eff) eff
          = apply_lifted_effect tuple rels eff
      ∧ (tuples_of (apply_lifted_effect tuple
            (apply_lifted_effect tuple rels eff) eff)
            eff.predicate_symbol).card
          = (tuples_of (apply_lifted_effect tuple rels eff)
              eff.predicate_symbol).card)
    ∧ (eff.negated = true →
      tuples_of (apply_lifted_effect tuple rels eff) eff.predicate_symbol
        = (tuples_of rels eff.predicate_symbol).erase
            (tuple_to_atom tuple eff)
      ∧ (tuple_to_atom tuple eff ∉ tuples_of rels eff.predicate_symbol →
          apply_lifted_effect tuple rels eff = rels)) := by
  constructor
  · intro hneg
    have hstep : ∀ rs : List Relation,
        apply_lifted_effect tuple rs eff
          = updateRelation rs eff.predicate_symbol (fun t =>
              if tuple_to_atom tuple eff ∈ t then t
              else insert (tuple_to_atom tuple eff) t) := by
      intro rs
      rw [apply_lifted_effect, hneg]
      rfl
    have h1 : tuples_of (apply_lifted_effect tuple rels eff)
        eff.predicate_symbol
        = insert (tuple_to_atom tuple eff)
            (tuples_of rels eff.predicate_symbol) := by
      rw [hstep, tuples_of_updateRelation _ _ _ hp]
      by_cases hmem : tuple_to_atom tuple eff ∈
          tuples_of rels eff.predicate_symbol
      · rw [if_pos hmem, Finset.insert_eq_self.mpr hmem]
      · rw [if_neg hmem]
    have h2 : apply_lifted_effect tuple (apply_lifted_effect tuple rels eff)
        eff = apply_lifted_effect tuple rels eff := by
      rw [hstep (apply_lifted_effect tuple rels eff)]
      apply updateRelation_noop
      · rw [hstep, updateRelation_length]
        exact hp
      · rw [h1, if_pos (Finset.mem_insert_self _ _)]
    exact ⟨h1, h2, by rw [h2]⟩
  · intro hneg
    have hstep : ∀ rs : List Relation,
        apply_lifted_effect tuple rs eff
          = updateRelation rs eff.predicate_symbol
              (fun t => t.erase (tuple_to_atom tuple eff)) := by
      intro rs
      rw [apply_lifted_effect, hneg]
      rfl
    constructor
    · rw [hstep, tuples_of_updateRelation _ _ _ hp]
    · intro habs
      rw [hstep]
      apply updateRelation_noop _ _ _ hp
      exact Finset.erase_eq_of_not_mem habs

theorem apply_lifted_effect_set_semantics_witness :
    (0 < ([⟨0, ∅⟩] : List Relation).length
      ∧ tuples_of
          (apply_lifted_effect []
            (apply_lifted_effect [] [⟨0, ∅⟩] ⟨0, [⟨4, true⟩], false⟩)
            ⟨0, [⟨4, true⟩], false⟩) 0
        = tuples_of
            (apply_lifted_effect [] [⟨0, ∅⟩] ⟨0, [⟨4, true⟩], false⟩) 0
      ∧ apply_lifted_effect []
          (apply_lifted_effect [] [⟨0, ∅⟩] ⟨0, [⟨4, true⟩], false⟩)
          ⟨0, [⟨4, true⟩], false⟩
        = apply_lifted_effect [] [⟨0, ∅⟩] ⟨0, [⟨4, true⟩], false⟩)
    ∧ apply_lifted_effect [] [⟨0, ∅⟩] ⟨0, [⟨4, true⟩], true⟩ = [⟨0, ∅⟩] :=
  ⟨⟨by decide,
    by rw [(apply_lifted_effect_set_semantics [] [⟨0, ∅⟩]
        ⟨0, [⟨4, true⟩], false⟩ (by decide)).1 rfl |>.2.1],
    (apply_lifted_effect_set_semantics [] [⟨0, ∅⟩]
        ⟨0, [⟨4, true⟩], false⟩ (by decide)).1 rfl |>.2.1⟩,
   ((apply_lifted_effect_set_semantics [] [⟨0, ∅⟩]
        ⟨0, [⟨4, true⟩], true⟩ (by decide)).2 rfl).2 (by decide)⟩

end LiSAT
